import Mathlib

/-
Verification of the sparse-file copier (copy_holes): the RegionReader and
BulkWriter state machines and the copy driver, shallowly embedded from
src/bin/copy_holes.rs and src/fd.rs. Bytes are natural numbers; the
destination file descriptor is modelled by its logical contents, its
current offset, and a log of the system calls issued on it. The source
file descriptor is modelled as the list of byte chunks returned by the
successive read system calls (each call fills up to the buffer capacity,
so a chunk may be shorter than the buffer; a well-formed source has only
nonempty chunks of at most BUF_SIZE bytes).
-/

/-- Bytes are modelled as natural numbers; only zero versus nonzero matters. -/
abbrev Byte := Nat

/-- Capacity of buffers for reading and writing file data (1 shifted left 16). -/
def BUF_SIZE : Nat := 1 <<< 16

/-- Observable system calls issued on the destination file descriptor. -/
inductive Ev where
  | write (payload : List Byte)
  | seekCur (amount : Nat)
  | setLen (length : Nat)
deriving DecidableEq, Repr

/-- The destination file: logical contents, current offset, and the log of
system calls issued so far. -/
structure OutFile where
  contents : List Byte
  pos : Nat
  log : List Ev
deriving DecidableEq, Repr

/-- Semantics of the write system call on the destination (fd.rs write):
place the payload at the current offset, zero-filling any gap between the
end of the contents and the offset, preserve any bytes beyond the written
range, and advance the offset. Returns the byte count reported by the
kernel; in this model the count is always the full payload length. -/
def OutFile.sysWrite (f : OutFile) (buf : List Byte) : OutFile × Nat :=
  let padded := f.contents ++ List.replicate (f.pos - f.contents.length) 0
  ({ contents :=
       padded.take f.pos ++ buf ++ padded.drop (f.pos + buf.length),
     pos := f.pos + buf.length,
     log := f.log ++ [Ev.write buf] }, buf.length)

/-- Semantics of lseek with SEEK_CUR (fd.rs lseek): advance the offset by
the given amount; the contents are unchanged. Returns the new absolute
offset. In this model the call always succeeds. -/
def OutFile.sysLseekCur (f : OutFile) (amount : Nat) : OutFile × Nat :=
  ({ f with pos := f.pos + amount, log := f.log ++ [Ev.seekCur amount] },
   f.pos + amount)

/-- Semantics of ftruncate (fd.rs ftruncate): set the file length to the
given value, truncating or zero-filling as needed; the offset is unchanged.
In this model the call always succeeds. -/
def OutFile.sysFtruncate (f : OutFile) (length : Nat) : OutFile :=
  { f with
    contents := f.contents.take length ++
      List.replicate (length - f.contents.length) 0,
    log := f.log ++ [Ev.setLen length] }

/-- A fresh destination file, as produced by opening with O_TRUNC. -/
def emptyFile : OutFile := { contents := [], pos := 0, log := [] }

/-- Error diagnostics. In the Rust code TlpiResult carries a unit error and
the distinction between failure kinds lives in the stderr diagnostic: the
fatal macro prints a generic message, the err_exit macro prints an
errno-based one. The model reifies the diagnostic as a constructor. The
diverge constructor marks a state in which the Rust loop would not
terminate (buffer capacity zero, or fuel exhaustion in the driver); it is
proved unreachable under the stated hypotheses. -/
inductive TlpiErr where
  | fatalErr (msg : String)
  | errExit (errno : Int) (msg : String)
  | diverge
deriving DecidableEq, Repr

/-- Result of a system call, as seen by the caller (fd.rs SysResult). -/
inductive SysRes (α : Type) where
  | ok (val : α)
  | err (errno : Int)
deriving DecidableEq, Repr

/-- A contiguous, non-empty segment of a stream of bytes: Data holds
non-zero bytes, Hole is a count of zero bytes (copy_holes.rs Region). -/
inductive Region where
  | Data (data : List Byte)
  | Hole (size : Nat)
deriving DecidableEq, Repr

/-- Whether a region is a hole; the kind of the region. -/
def Region.isHole : Region → Bool
  | Region.Data _ => false
  | Region.Hole _ => true

/-- The bytes a region stands for: a Data region is its bytes, a Hole of a
given size stands for that many zero bytes. -/
def regionBytes : Region → List Byte
  | Region.Data d => d
  | Region.Hole n => List.replicate n 0

/-- The length in bytes of a region. -/
def regionLen : Region → Nat
  | Region.Data d => d.length
  | Region.Hole n => n

/-- Shape of a well-formed region: a Data region is nonempty and free of
zero bytes, a Hole has positive length. -/
def regionOk : Region → Prop
  | Region.Data d => d ≠ [] ∧ ∀ b ∈ d, b ≠ 0
  | Region.Hole n => 0 < n

/-- Reads files as a sequence of regions (copy_holes.rs RegionReader).
The src field is the sequence of chunks the remaining read system calls
will return; buffer, next_index and bytes_read are as in the Rust struct.
Only the first bytes_read buffer bytes are ever inspected, so the model
keeps just those bytes. -/
structure RegionReader where
  src : List (List Byte)
  buffer : List Byte
  next_index : Nat
  bytes_read : Nat
deriving DecidableEq, Repr

/-- Create an empty reader from a source (copy_holes.rs RegionReader
attach): no bytes read yet, cursor at zero. -/
def RegionReader.attach (src : List (List Byte)) : RegionReader :=
  { src := src, buffer := [], next_index := 0, bytes_read := 0 }

/-- Index of the first element satisfying the predicate, as the position
method of Rust iterators computes it. -/
def position (p : Byte → Bool) : List Byte → Option Nat
  | [] => none
  | b :: bs => if p b then some 0 else (position p bs).map (· + 1)

/-- Find the first index in buffer at or beyond next_index that satisfies
the predicate, scanning only the valid bytes up to bytes_read; if none is
found, return bytes_read (copy_holes.rs RegionReader next_region). -/
def RegionReader.next_region (r : RegionReader) (p : Byte → Bool) : Nat :=
  match position p
      ((r.buffer.drop r.next_index).take (r.bytes_read - r.next_index)) with
  | some pos => r.next_index + pos
  | none => r.bytes_read

/-- Classify the region starting at the cursor: a zero byte starts a Hole
ending at the first nonzero byte, a nonzero byte starts a Data region
ending at the first zero byte (the body of copy_holes.rs RegionReader read
after the refill check). -/
def RegionReader.classify (r : RegionReader) : Region × RegionReader :=
  let current_region_start := r.next_index
  if r.buffer.getD current_region_start 0 = 0 then
    let j := r.next_region (fun byte => byte != 0)
    (Region.Hole (j - current_region_start), { r with next_index := j })
  else
    let j := r.next_region (fun byte => byte == 0)
    (Region.Data ((r.buffer.drop current_region_start).take
        (j - current_region_start)),
     { r with next_index := j })

/-- Extract the next region from the file (copy_holes.rs RegionReader
read): refill the buffer from the source when the cursor has reached the
high-water mark; a read of zero bytes means end of file (none). In the
model a read on the source cannot fail, so the error branch of the Rust
code is dead. -/
def RegionReader.read (r : RegionReader) : Option Region × RegionReader :=
  let refilled : Option RegionReader :=
    if r.next_index = r.bytes_read then
      match r.src with
      | [] => none
      | chunk :: rest =>
        if chunk.length = 0 then none
        else some { src := rest, buffer := chunk, next_index := 0,
                    bytes_read := chunk.length }
    else some r
  match refilled with
  | none => (none, r)
  | some r1 =>
    let (region, r2) := r1.classify
    (some region, r2)

/-- Writes regions to a file (copy_holes.rs BulkWriter). The cap field is
the capacity of the Rust Vec backing the buffer. -/
structure BulkWriter where
  file : OutFile
  buffer : List Byte
  cap : Nat
  pending_extend : Nat
  bytes_added : Nat
deriving DecidableEq, Repr

/-- Create an empty writer on a destination file (copy_holes.rs BulkWriter
attach): empty buffer with capacity BUF_SIZE, no pending extension, no
bytes added. -/
def BulkWriter.attach (f : OutFile) : BulkWriter :=
  { file := f, buffer := [], cap := BUF_SIZE,
    pending_extend := 0, bytes_added := 0 }

/-- The number of unused bytes of capacity in the buffer (copy_holes.rs
BulkWriter remaining). -/
def BulkWriter.remaining (st : BulkWriter) : Nat :=
  st.cap - st.buffer.length

/-- The flush_writes body of copy_holes.rs BulkWriter with the result of
the underlying write system call supplied explicitly: on a reported count,
tally it into bytes_added, then fail fatally if the count differs from the
buffered length, else clear the buffer; on an errno, fail with the
errno-based diagnostic. -/
def BulkWriter.flushWritesWith (st : BulkWriter) (res : SysRes Nat) :
    Except TlpiErr BulkWriter :=
  match res with
  | SysRes.ok byte_count =>
    let st1 := { st with bytes_added := st.bytes_added + byte_count }
    if st1.buffer.length ≠ byte_count then
      Except.error (TlpiErr.fatalErr "wrote partial data")
    else
      Except.ok { st1 with buffer := [] }
  | SysRes.err errno => Except.error (TlpiErr.errExit errno "write failure")

/-- Write all buffered data to file (copy_holes.rs BulkWriter
flush_writes): issue the write system call and handle its result. -/
def BulkWriter.flush_writes (st : BulkWriter) : Except TlpiErr BulkWriter :=
  let (f, byte_count) := st.file.sysWrite st.buffer
  BulkWriter.flushWritesWith { st with file := f } (SysRes.ok byte_count)

/-- Write all buffered length extensions to file (copy_holes.rs BulkWriter
flush_extends): seek forward by the pending amount, tally it into
bytes_added, and reset it. In the model the seek cannot fail, so the error
branch of the Rust code is dead. -/
def BulkWriter.flush_extends (st : BulkWriter) : Except TlpiErr BulkWriter :=
  let (f, _) := st.file.sysLseekCur st.pending_extend
  Except.ok { st with file := f,
                      bytes_added := st.bytes_added + st.pending_extend,
                      pending_extend := 0 }

/-- Append a chunk to the buffer, as Vec extend does on a slice: the
capacity grows (amortized doubling, as the Rust standard library grows a
Vec) exactly when the result would not fit. -/
def BulkWriter.pushChunk (st : BulkWriter) (chunk : List Byte) : BulkWriter :=
  let needed := st.buffer.length + chunk.length
  { st with buffer := st.buffer ++ chunk,
            cap := if st.cap < needed then max (2 * st.cap) needed
                   else st.cap }

/-- The copy loop inside copy_holes.rs BulkWriter write: while data
remains, flush the buffer when no capacity remains, then move the next
slice of at most capacity bytes into the buffer. The flush leaves the
capacity unchanged, so the capacity of the current state is the one the
loop body reads. The fuel argument only bounds the number of iterations
so the recursion is structural; each iteration moves at least one byte
when the capacity is positive, so fuel equal to the data length (what the
caller passes) is never exhausted and the diverge marker is unreachable. -/
def BulkWriter.writeLoop (fuel : Nat) (st : BulkWriter)
    (data : List Byte) : Except TlpiErr BulkWriter :=
  if data.length = 0 then Except.ok st
  else
    match fuel with
    | 0 => Except.error TlpiErr.diverge
    | fuel + 1 =>
      let flushed : Except TlpiErr BulkWriter :=
        if st.remaining = 0 then st.flush_writes else Except.ok st
      match flushed with
      | Except.error e => Except.error e
      | Except.ok st1 =>
        BulkWriter.writeLoop fuel (st1.pushChunk (data.take st.cap))
          (data.drop st.cap)

/-- Write the given data to file (copy_holes.rs BulkWriter write): when a
length extension is pending and the data is nonempty, first flush any
buffered data, then flush the pending extension (the seek); then buffer
the data in capacity-sized chunks, flushing as the buffer fills. -/
def BulkWriter.write (st : BulkWriter) (data : List Byte) :
    Except TlpiErr BulkWriter :=
  let pre : Except TlpiErr BulkWriter :=
    if st.pending_extend > 0 ∧ data.length > 0 then
      match (if st.buffer.length > 0 then st.flush_writes
             else Except.ok st) with
      | Except.error e => Except.error e
      | Except.ok stf => stf.flush_extends
    else Except.ok st
  match pre with
  | Except.error e => Except.error e
  | Except.ok st1 => BulkWriter.writeLoop data.length st1 data

/-- Increase the length of the file by the given amount of bytes
(copy_holes.rs BulkWriter extend): accumulate into the pending counter;
no input or output occurs. -/
def BulkWriter.extend (st : BulkWriter) (amount : Nat) : BulkWriter :=
  { st with pending_extend := st.pending_extend + amount }

/-- Flush any buffered data and length extensions and consume the writer
(copy_holes.rs BulkWriter detach): flush the buffer if nonempty; if an
extension is pending, do not seek, but set the file length to bytes_added
plus the pending amount. In the model ftruncate cannot fail, so the error
branch of the Rust code is dead. -/
def BulkWriter.detach (st : BulkWriter) : Except TlpiErr BulkWriter :=
  match (if st.buffer.length > 0 then st.flush_writes
         else Except.ok st) with
  | Except.error e => Except.error e
  | Except.ok st1 =>
    if st1.pending_extend > 0 then
      let file_length := st1.bytes_added + st1.pending_extend
      Except.ok { st1 with file := st1.file.sysFtruncate file_length }
    else Except.ok st1

/-- The loop of copy_holes.rs copy_with_holes: pull a region, push Data
via write and Hole via extend, detach at end of stream. The fuel bounds
the number of iterations; with fuel at least readerFuel the bound is never
hit. -/
def copyLoop (fuel : Nat) (r : RegionReader) (w : BulkWriter) :
    Except TlpiErr BulkWriter :=
  match fuel with
  | 0 => Except.error TlpiErr.diverge
  | fuel + 1 =>
    match r.read with
    | (none, _) => w.detach
    | (some region, r1) =>
      match region with
      | Region.Data data =>
        match w.write data with
        | Except.error e => Except.error e
        | Except.ok w1 => copyLoop fuel r1 w1
      | Region.Hole size => copyLoop fuel r1 (w.extend size)

/-- Strict upper bound on the number of read calls the reader can answer
before end of stream: unread buffer bytes plus total source bytes plus
source chunk count, plus one. -/
def readerFuel (r : RegionReader) : Nat :=
  (r.bytes_read - r.next_index) + (r.src.map List.length).sum
    + r.src.length + 1

/-- The copy driver (copy_holes.rs copy_with_holes) on a fresh destination
file, returning the final writer state. -/
def copy_with_holes (src : List (List Byte)) : Except TlpiErr BulkWriter :=
  let r := RegionReader.attach src
  copyLoop (readerFuel r) r (BulkWriter.attach emptyFile)

/-- Run the reader to completion, collecting the emitted regions. -/
def readAll (fuel : Nat) (r : RegionReader) : List Region :=
  match fuel with
  | 0 => []
  | fuel + 1 =>
    match r.read with
    | (none, _) => []
    | (some region, r1) => region :: readAll fuel r1

/-- The full region decomposition of a source. -/
def regionsOf (src : List (List Byte)) : List Region :=
  let r := RegionReader.attach src
  readAll (readerFuel r) r

/-- A well-formed source: every read system call on the source returns at
least one byte (zero bytes only at end of stream) and at most the buffer
capacity. -/
def wfSrc (src : List (List Byte)) : Prop :=
  ∀ c ∈ src, c ≠ [] ∧ c.length ≤ BUF_SIZE

/-- Reader well-formedness: the cursor is within the valid bytes, the
model buffer holds exactly the valid bytes, and the remaining source is
well formed. -/
def wfR (r : RegionReader) : Prop :=
  r.next_index ≤ r.bytes_read ∧ r.bytes_read = r.buffer.length
    ∧ wfSrc r.src

/-- The bytes of the stream the reader has not yet emitted as regions. -/
def restBytes (r : RegionReader) : List Byte :=
  r.buffer.drop r.next_index ++ r.src.flatten

/-- Decrease measure for the reader: unread buffer bytes plus total source
bytes plus source chunk count. -/
def rMeasure (r : RegionReader) : Nat :=
  (r.bytes_read - r.next_index) + (r.src.map List.length).sum + r.src.length

/-- The payload bytes of the write events in a log, in order. -/
def writtenBytes : List Ev → List Byte
  | [] => []
  | Ev.write bs :: es => bs ++ writtenBytes es
  | Ev.seekCur _ :: es => writtenBytes es
  | Ev.setLen _ :: es => writtenBytes es

/-- The number of zero bytes at the head of a list. -/
def leadZeros : List Byte → Nat
  | [] => 0
  | b :: bs => if b = 0 then leadZeros bs + 1 else 0

/-- The number of zero bytes at the tail of a list. -/
def trailZeros (l : List Byte) : Nat := leadZeros l.reverse

/-- The committed bytes of the writer: the file contents, the zero gap up
to the offset, and the buffered bytes. -/
def vcb (st : BulkWriter) : List Byte :=
  st.file.contents
    ++ List.replicate (st.file.pos - st.file.contents.length) 0
    ++ st.buffer

/-- The logical bytes the writer stands for: the committed bytes followed
by the pending zero extension. -/
def virt (st : BulkWriter) : List Byte :=
  vcb st ++ List.replicate st.pending_extend 0

/-- Writer well-formedness: bytes_added equals the file offset, the
contents do not extend past the offset, the capacity is positive, and the
buffer is within capacity. -/
def wInv (st : BulkWriter) : Prop :=
  st.bytes_added = st.file.pos
    ∧ st.file.contents.length ≤ st.file.pos
    ∧ 1 ≤ st.cap
    ∧ st.buffer.length ≤ st.cap

/-- Either the offset sits at the end of the contents, or data is
buffered; a forward seek is only ever issued with data to follow. -/
def slackOk (st : BulkWriter) : Prop :=
  st.file.pos = st.file.contents.length ∨ st.buffer ≠ []

/-- Whether some two adjacent regions in the list share a kind. -/
def sameKindAdjacent : List Region → Bool
  | a :: b :: rest => (a.isHole == b.isHole) || sameKindAdjacent (b :: rest)
  | _ => false

instance (src : List (List Byte)) : Decidable (wfSrc src) :=
  inferInstanceAs (Decidable (∀ c ∈ src, c ≠ [] ∧ c.length ≤ BUF_SIZE))

instance (r : RegionReader) : Decidable (wfR r) :=
  inferInstanceAs (Decidable (r.next_index ≤ r.bytes_read
    ∧ r.bytes_read = r.buffer.length ∧ wfSrc r.src))

instance (st : BulkWriter) : Decidable (wInv st) :=
  inferInstanceAs (Decidable (st.bytes_added = st.file.pos
    ∧ st.file.contents.length ≤ st.file.pos
    ∧ 1 ≤ st.cap
    ∧ st.buffer.length ≤ st.cap))

instance (st : BulkWriter) : Decidable (slackOk st) :=
  inferInstanceAs
    (Decidable (st.file.pos = st.file.contents.length ∨ st.buffer ≠ []))

instance : (reg : Region) → Decidable (regionOk reg)
  | Region.Data d =>
    inferInstanceAs (Decidable (d ≠ [] ∧ ∀ b ∈ d, b ≠ 0))
  | Region.Hole n => inferInstanceAs (Decidable (0 < n))


/-! Lemmas about position. -/

theorem getD_drop_zero (B : List Byte) (i k : Nat) :
    (B.drop i).getD k 0 = B.getD (i + k) 0 := by
  simp [List.getD_eq_getElem?_getD, List.getElem?_drop]

theorem position_eq_none {p : Byte → Bool} {l : List Byte} :
    position p l = none ↔ ∀ b ∈ l, p b = false := by
  induction l with
  | nil => simp [position]
  | cons b bs ih =>
    by_cases hb : p b
    · simp [position, hb]
    · simp [position, hb, Option.map_eq_none', ih]

theorem position_eq_some {p : Byte → Bool} {l : List Byte} {i : Nat}
    (h : position p l = some i) :
    i < l.length ∧ p (l.getD i 0) = true ∧ ∀ b ∈ l.take i, p b = false := by
  induction l generalizing i with
  | nil => simp [position] at h
  | cons b bs ih =>
    by_cases hb : p b
    · simp [position, hb] at h
      subst h
      simpa using hb
    · simp [position, hb] at h
      obtain ⟨j, hj, rfl⟩ := h
      obtain ⟨h1, h2, h3⟩ := ih hj
      refine ⟨by simpa using h1, by simpa using h2, ?_⟩
      intro c hc
      simp [List.take_cons] at hc
      rcases hc with rfl | hc
      · simpa using hb
      · exact h3 c hc

theorem next_region_eq {r : RegionReader} (hn : r.bytes_read = r.buffer.length)
    (p : Byte → Bool) :
    r.next_region p
      = match position p (r.buffer.drop r.next_index) with
        | some pos => r.next_index + pos
        | none => r.bytes_read := by
  have htake : (r.buffer.drop r.next_index).take
      (r.bytes_read - r.next_index) = r.buffer.drop r.next_index := by
    apply List.take_of_length_le
    simp [hn]
  simp only [RegionReader.next_region, htake]

theorem classify_spec {r : RegionReader} (hn : r.bytes_read = r.buffer.length)
    (hlt : r.next_index < r.bytes_read) :
    ∃ reg j,
      r.classify = (reg, { r with next_index := j })
      ∧ r.next_index < j ∧ j ≤ r.bytes_read
      ∧ regionBytes reg ++ r.buffer.drop j = r.buffer.drop r.next_index
      ∧ regionOk reg
      ∧ (j < r.bytes_read → (r.buffer.getD j 0 = 0 ↔ reg.isHole = false)) := by
  have hlen : (r.buffer.drop r.next_index).length
      = r.bytes_read - r.next_index := by
    simp [hn]
  by_cases hb : r.buffer.getD r.next_index 0 = 0
  · -- Hole branch
    rcases hpos : position (fun byte => byte != 0)
        (r.buffer.drop r.next_index) with _ | pos
    · -- the rest of the valid bytes are all zero
      have hall : ∀ b ∈ r.buffer.drop r.next_index, (b != 0) = false :=
        position_eq_none.mp hpos
      have hseg : r.buffer.drop r.next_index
          = List.replicate (r.bytes_read - r.next_index) 0 := by
        rw [List.eq_replicate_iff]
        refine ⟨hlen, ?_⟩
        intro b hbmem
        have := hall b hbmem
        simpa using this
      refine ⟨Region.Hole (r.bytes_read - r.next_index), r.bytes_read,
        ?_, hlt, le_refl _, ?_, ?_, ?_⟩
      · simp only [RegionReader.classify, next_region_eq hn, hpos, if_pos hb]
      · have hdrop : r.buffer.drop r.bytes_read = [] := by
          apply List.drop_eq_nil_of_le
          omega
        simp [regionBytes, hdrop, hseg]
      · show 0 < r.bytes_read - r.next_index
        omega
      · intro hcontra
        omega
    · -- there is a nonzero byte at offset pos past the cursor
      obtain ⟨hp1, hp2, hp3⟩ := position_eq_some hpos
      have hpos0 : pos ≠ 0 := by
        intro h0
        subst h0
        rw [getD_drop_zero] at hp2
        simp only [Nat.add_zero, bne_iff_ne, ne_eq] at hp2
        exact hp2 hb
      have hjn : r.next_index + pos < r.bytes_read := by
        omega
      have hseg : (r.buffer.drop r.next_index).take pos
          = List.replicate pos 0 := by
        rw [List.eq_replicate_iff]
        constructor
        · simp
          omega
        · intro b hbmem
          have := hp3 b hbmem
          simpa using this
      refine ⟨Region.Hole pos, r.next_index + pos, ?_, by omega, by omega,
        ?_, ?_, ?_⟩
      · simp only [RegionReader.classify, next_region_eq hn, hpos, if_pos hb,
          Nat.add_sub_cancel_left]
      · rw [regionBytes, ← hseg, ← List.drop_drop]
        exact List.take_append_drop pos (r.buffer.drop r.next_index)
      · show 0 < pos
        omega
      · intro _
        rw [getD_drop_zero] at hp2
        simp only [bne_iff_ne, ne_eq] at hp2
        simp only [Region.isHole, Bool.true_eq_false, iff_false]
        exact hp2
  · -- Data branch
    rcases hpos : position (fun byte => byte == 0)
        (r.buffer.drop r.next_index) with _ | pos
    · -- no zero byte among the rest of the valid bytes
      have hall : ∀ b ∈ r.buffer.drop r.next_index, (b == 0) = false :=
        position_eq_none.mp hpos
      have htk : (r.buffer.drop r.next_index).take
          (r.bytes_read - r.next_index) = r.buffer.drop r.next_index := by
        apply List.take_of_length_le
        omega
      refine ⟨Region.Data ((r.buffer.drop r.next_index).take
          (r.bytes_read - r.next_index)), r.bytes_read,
        ?_, hlt, le_refl _, ?_, ?_, ?_⟩
      · simp only [RegionReader.classify, next_region_eq hn, hpos, if_neg hb]
      · have hdrop : r.buffer.drop r.bytes_read = [] := by
          apply List.drop_eq_nil_of_le
          omega
        simp [regionBytes, hdrop, htk]
      · show (r.buffer.drop r.next_index).take (r.bytes_read - r.next_index)
            ≠ []
          ∧ ∀ b ∈ (r.buffer.drop r.next_index).take
              (r.bytes_read - r.next_index), b ≠ 0
        rw [htk]
        constructor
        · intro hnil
          rw [hnil] at hlen
          simp at hlen
          omega
        · intro b hbmem
          have := hall b hbmem
          simpa using this
      · intro hcontra
        omega
    · -- the first zero byte sits at offset pos past the cursor
      obtain ⟨hp1, hp2, hp3⟩ := position_eq_some hpos
      have hpos0 : pos ≠ 0 := by
        intro h0
        subst h0
        rw [getD_drop_zero] at hp2
        simp only [Nat.add_zero, beq_iff_eq] at hp2
        exact hb hp2
      have hjn : r.next_index + pos < r.bytes_read := by
        omega
      refine ⟨Region.Data ((r.buffer.drop r.next_index).take pos),
        r.next_index + pos, ?_, by omega, by omega, ?_, ?_, ?_⟩
      · simp only [RegionReader.classify, next_region_eq hn, hpos, if_neg hb,
          Nat.add_sub_cancel_left]
      · rw [regionBytes, ← List.drop_drop]
        exact List.take_append_drop pos (r.buffer.drop r.next_index)
      · show (r.buffer.drop r.next_index).take pos ≠ []
          ∧ ∀ b ∈ (r.buffer.drop r.next_index).take pos, b ≠ 0
        constructor
        · intro hnil
          have : pos ⊓ (r.buffer.drop r.next_index).length = 0 := by
            rw [← List.length_take, hnil]
            simp
          omega
        · intro b hbmem
          have := hp3 b hbmem
          simpa using this
      · intro _
        rw [getD_drop_zero] at hp2
        simp only [beq_iff_eq] at hp2
        simp only [Region.isHole, hp2]

/-! Step lemmas for RegionReader read. -/

theorem read_none_spec {r r2 : RegionReader} (hwf : wfR r)
    (h : r.read = (none, r2)) : restBytes r = [] ∧ r2 = r := by
  obtain ⟨hle, hn, hsrc⟩ := hwf
  simp only [RegionReader.read] at h
  by_cases hre : r.next_index = r.bytes_read
  · rcases hsr : r.src with _ | ⟨chunk, rest⟩
    · simp only [hsr, if_pos hre, Prod.mk.injEq] at h
      refine ⟨?_, h.2.symm⟩
      have hd : r.buffer.drop r.next_index = [] := by
        apply List.drop_eq_nil_of_le
        omega
      simp [restBytes, hd, hsr]
    · have hchunk := hsrc chunk (by rw [hsr]; exact List.mem_cons_self _ _)
      have hcne : chunk.length ≠ 0 := by
        intro hzero
        exact hchunk.1 (List.eq_nil_of_length_eq_zero hzero)
      simp only [hsr, if_pos hre, if_neg hcne, Prod.mk.injEq] at h
      exact absurd h.1 (by simp)
  · simp only [if_neg hre, Prod.mk.injEq] at h
    exact absurd h.1 (by simp)

theorem read_some_spec {r : RegionReader} {reg : Region} {r2 : RegionReader}
    (hwf : wfR r) (h : r.read = (some reg, r2)) :
    wfR r2
    ∧ regionBytes reg ++ restBytes r2 = restBytes r
    ∧ rMeasure r2 < rMeasure r
    ∧ regionOk reg
    ∧ (r2.next_index < r2.bytes_read →
        (r2.buffer.getD r2.next_index 0 = 0 ↔ reg.isHole = false)) := by
  obtain ⟨hle, hn, hsrc⟩ := hwf
  simp only [RegionReader.read] at h
  by_cases hre : r.next_index = r.bytes_read
  · rcases hsr : r.src with _ | ⟨chunk, rest⟩
    · simp only [hsr, if_pos hre, Prod.mk.injEq] at h
      exact absurd h.1 (by simp)
    · have hchunk := hsrc chunk (by rw [hsr]; exact List.mem_cons_self _ _)
      have hcne : chunk.length ≠ 0 := by
        intro hzero
        exact hchunk.1 (List.eq_nil_of_length_eq_zero hzero)
      simp only [hsr, if_pos hre, if_neg hcne] at h
      have hwf1 : (0:Nat) < chunk.length := Nat.pos_of_ne_zero hcne
      obtain ⟨reg1, j, hcl, hjlt, hjle, hsegs, hkind, hbound⟩ :=
        @classify_spec ⟨rest, chunk, 0, chunk.length⟩ rfl hwf1
      rw [hcl, Prod.mk.injEq] at h
      obtain ⟨hreg, hr2⟩ := h
      rw [Option.some.injEq] at hreg
      subst hreg
      subst hr2
      refine ⟨⟨hjle, rfl, ?_⟩, ?_, ?_, hkind, hbound⟩
      · intro c hc
        exact hsrc c (by rw [hsr]; exact List.mem_cons_of_mem _ hc)
      · simp only [restBytes]
        have hdropall : r.buffer.drop r.next_index = [] := by
          apply List.drop_eq_nil_of_le
          omega
        simp only [hdropall, List.nil_append, hsr, List.flatten_cons]
        simp only [List.drop_zero] at hsegs
        rw [← List.append_assoc, hsegs]
      · simp only [rMeasure, hsr]
        simp only [List.map_cons, List.sum_cons, List.length_cons]
        omega
  · simp only [if_neg hre] at h
    have hlt : r.next_index < r.bytes_read := by
      omega
    obtain ⟨reg1, j, hcl, hjlt, hjle, hsegs, hkind, hbound⟩ :=
      classify_spec hn hlt
    rw [hcl, Prod.mk.injEq] at h
    obtain ⟨hreg, hr2⟩ := h
    rw [Option.some.injEq] at hreg
    subst hreg
    subst hr2
    refine ⟨⟨hjle, hn, hsrc⟩, ?_, ?_, hkind, hbound⟩
    · simp only [restBytes]
      rw [← List.append_assoc, hsegs]
    · simp only [rMeasure]
      omega

/-! Lemmas about trailing zero runs. -/

theorem leadZeros_replicate_append (n : Nat) (l : List Byte) :
    leadZeros (List.replicate n 0 ++ l) = n + leadZeros l := by
  induction n with
  | zero => simp [List.replicate]
  | succ n ih =>
    have hz : leadZeros ((0:Byte) :: (List.replicate n 0 ++ l))
        = leadZeros (List.replicate n 0 ++ l) + 1 := by
      simp [leadZeros]
    rw [List.replicate_succ, List.cons_append, hz, ih]
    omega

theorem trailZeros_append_replicate (l : List Byte) (n : Nat) :
    trailZeros (l ++ List.replicate n 0) = trailZeros l + n := by
  simp only [trailZeros, List.reverse_append, List.reverse_replicate,
    leadZeros_replicate_append]
  omega

theorem trailZeros_append_nonzero {l d : List Byte} (hne : d ≠ [])
    (hnz : ∀ b ∈ d, b ≠ 0) : trailZeros (l ++ d) = 0 := by
  rcases hrev : d.reverse with _ | ⟨a, t⟩
  · exact absurd (by simpa using hrev) hne
  · have ha : a ∈ d := by
      have : a ∈ d.reverse := by
        rw [hrev]
        exact List.mem_cons_self _ _
      simpa using this
    simp only [trailZeros, List.reverse_append, hrev, List.cons_append,
      leadZeros, if_neg (hnz a ha)]

theorem trailZeros_pos_of_getLast {l : List Byte}
    (h : l.getLast? = some 0) : 0 < trailZeros l := by
  rcases hrev : l.reverse with _ | ⟨a, t⟩
  · rw [List.reverse_eq_nil_iff] at hrev
    subst hrev
    simp at h
  · have := @List.getLast?_eq_head?_reverse _ l
    rw [h, hrev] at this
    simp at this
    subst this
    simp [trailZeros, hrev, leadZeros]

/-! Lemmas about the writer flush operations. -/

theorem flush_writes_ok {st : BulkWriter}
    (hcl : st.file.contents.length ≤ st.file.pos) :
    st.flush_writes = Except.ok
      { file :=
          { contents := st.file.contents
              ++ List.replicate (st.file.pos - st.file.contents.length) 0
              ++ st.buffer,
            pos := st.file.pos + st.buffer.length,
            log := st.file.log ++ [Ev.write st.buffer] },
        buffer := [],
        cap := st.cap,
        pending_extend := st.pending_extend,
        bytes_added := st.bytes_added + st.buffer.length } := by
  have htk : (st.file.contents
      ++ List.replicate (st.file.pos - st.file.contents.length) 0).take
        st.file.pos
      = st.file.contents
        ++ List.replicate (st.file.pos - st.file.contents.length) 0 := by
    apply List.take_of_length_le
    simp
    omega
  have hdr : (st.file.contents
      ++ List.replicate (st.file.pos - st.file.contents.length) 0).drop
        (st.file.pos + st.buffer.length) = [] := by
    apply List.drop_eq_nil_of_le
    simp
    omega
  unfold BulkWriter.flush_writes OutFile.sysWrite BulkWriter.flushWritesWith
  simp only [htk, hdr, List.append_nil, ne_eq, not_true_eq_false,
    if_neg, ite_false]

theorem flush_extends_eq (st : BulkWriter) :
    st.flush_extends = Except.ok
      { file :=
          { contents := st.file.contents,
            pos := st.file.pos + st.pending_extend,
            log := st.file.log ++ [Ev.seekCur st.pending_extend] },
        buffer := st.buffer, cap := st.cap, pending_extend := 0,
        bytes_added := st.bytes_added + st.pending_extend } := rfl

/-! Small facts about pushChunk. -/

theorem pushChunk_buffer (st : BulkWriter) (chunk : List Byte) :
    (st.pushChunk chunk).buffer = st.buffer ++ chunk := rfl

theorem pushChunk_file (st : BulkWriter) (chunk : List Byte) :
    (st.pushChunk chunk).file = st.file := rfl

theorem pushChunk_pending (st : BulkWriter) (chunk : List Byte) :
    (st.pushChunk chunk).pending_extend = st.pending_extend := rfl

theorem pushChunk_bytes_added (st : BulkWriter) (chunk : List Byte) :
    (st.pushChunk chunk).bytes_added = st.bytes_added := rfl

theorem pushChunk_cap_ge (st : BulkWriter) (chunk : List Byte) :
    st.cap ≤ (st.pushChunk chunk).cap := by
  simp only [BulkWriter.pushChunk]
  split
  · exact le_trans (by omega) (Nat.le_max_left _ _)
  · exact le_refl _

theorem pushChunk_fits (st : BulkWriter) (chunk : List Byte) :
    (st.pushChunk chunk).buffer.length ≤ (st.pushChunk chunk).cap := by
  simp only [BulkWriter.pushChunk]
  rcases Nat.lt_or_ge st.cap (st.buffer.length + chunk.length) with hgt | hle
  · rw [if_pos hgt]
    simp
  · rw [if_neg (by omega)]
    simpa using hle

theorem vcb_pushChunk (st : BulkWriter) (chunk : List Byte) :
    vcb (st.pushChunk chunk) = vcb st ++ chunk := by
  simp [vcb, BulkWriter.pushChunk]

/-- Bundled facts about a successful buffer flush. -/
theorem flush_state_facts {st : BulkWriter}
    (hcl : st.file.contents.length ≤ st.file.pos)
    (hba : st.bytes_added = st.file.pos) :
    ∃ stf, st.flush_writes = Except.ok stf
      ∧ vcb stf = vcb st
      ∧ stf.buffer = []
      ∧ stf.cap = st.cap
      ∧ stf.pending_extend = st.pending_extend
      ∧ stf.file.contents.length = stf.file.pos
      ∧ stf.bytes_added = stf.file.pos
      ∧ stf.file.log = st.file.log ++ [Ev.write st.buffer]
      ∧ stf.file.pos = st.file.pos + st.buffer.length
      ∧ stf.file.contents = vcb st := by
  have h0 : (st.file.pos + st.buffer.length)
      - (st.file.contents
        ++ List.replicate (st.file.pos - st.file.contents.length) 0
        ++ st.buffer).length = 0 := by
    simp
    omega
  refine ⟨_, flush_writes_ok hcl, ?_, rfl, rfl, rfl, ?_, ?_, rfl, rfl, rfl⟩
  · simp only [vcb]
    rw [h0]
    simp
  · simp
    omega
  · show st.bytes_added + st.buffer.length = st.file.pos + st.buffer.length
    omega

/-- Behaviour of the writeLoop on the empty list. -/
theorem writeLoop_nil (fuel : Nat) (st : BulkWriter) :
    BulkWriter.writeLoop fuel st [] = Except.ok st := by
  unfold BulkWriter.writeLoop
  simp

/-- Full specification of the buffering loop of write: the loop succeeds,
appends exactly the data to the committed bytes, leaves the pending
extension alone, can only grow the capacity, keeps the buffer within
capacity and bytes_added equal to the offset, emits only write events on
the log, and the bytes it writes followed by the final buffer are the old
buffer followed by the data. -/
theorem writeLoop_spec :
    ∀ (n : Nat) (data : List Byte) (st : BulkWriter), data.length ≤ n →
    1 ≤ st.cap → st.buffer.length ≤ st.cap →
    st.file.contents.length ≤ st.file.pos →
    st.bytes_added = st.file.pos →
    ∃ st' evs,
      BulkWriter.writeLoop n st data = Except.ok st'
      ∧ vcb st' = vcb st ++ data
      ∧ st'.pending_extend = st.pending_extend
      ∧ st.cap ≤ st'.cap
      ∧ st'.buffer.length ≤ st'.cap
      ∧ st'.file.contents.length ≤ st'.file.pos
      ∧ st'.bytes_added = st'.file.pos
      ∧ st'.file.log = st.file.log ++ evs
      ∧ (∀ e ∈ evs, ∃ bs, e = Ev.write bs)
      ∧ writtenBytes evs ++ st'.buffer = st.buffer ++ data
      ∧ (st.buffer ++ data ≠ [] → st'.buffer ≠ []) := by
  intro n
  induction n with
  | zero =>
    intro data st hlen hcap hbc hcl hba
    have hdata : data = [] := List.eq_nil_of_length_eq_zero (by omega)
    subst hdata
    exact ⟨st, [], writeLoop_nil 0 st, by simp, rfl, le_refl _, hbc, hcl,
      hba, by simp, by simp, by simp [writtenBytes],
      fun hne => by simpa using hne⟩
  | succ n ih =>
    intro data st hlen hcap hbc hcl hba
    by_cases hdnil : data = []
    · subst hdnil
      exact ⟨st, [], writeLoop_nil (n + 1) st, by simp, rfl, le_refl _, hbc,
        hcl, hba, by simp, by simp, by simp [writtenBytes],
        fun hne => by simpa using hne⟩
    · have hlc : ¬ data.length = 0 := by
        simpa [List.length_eq_zero] using hdnil
      have hc0 : ¬ st.cap = 0 := by omega
      have hchunkne : data.take st.cap ≠ [] := by
        rw [ne_eq, List.take_eq_nil_iff]
        push_neg
        exact ⟨hc0, hdnil⟩
      have hdroplen : (data.drop st.cap).length ≤ n := by
        simp only [List.length_drop]
        omega
      by_cases hrem : st.remaining = 0
      · -- the buffer has no room left: it is flushed first
        obtain ⟨stf, hfeq, hvcbf, hbuff, hcapf, hpendf, hclenf, hbaf, hlogf,
            hposf, hcontf⟩ := flush_state_facts hcl hba
        have hstep : BulkWriter.writeLoop (n + 1) st data
            = BulkWriter.writeLoop n (stf.pushChunk (data.take st.cap))
                (data.drop st.cap) := by
          rw [BulkWriter.writeLoop.eq_def, if_neg hlc, if_pos hrem, hfeq]
        obtain ⟨st', evs', heq, hvcb, hpend, hcaple, hbc', hcl', hba', hlog,
            hw, hwb, hbne⟩ :=
          ih (data.drop st.cap) (stf.pushChunk (data.take st.cap)) hdroplen
            (by
              rw [← hcapf] at hcap
              exact le_trans hcap (pushChunk_cap_ge stf _))
            (pushChunk_fits stf _)
            (by rw [pushChunk_file]; exact le_of_eq hclenf)
            (by rw [pushChunk_bytes_added, pushChunk_file]; exact hbaf)
        refine ⟨st', Ev.write st.buffer :: evs', hstep.trans heq, ?_, ?_, ?_,
          hbc', hcl', hba', ?_, ?_, ?_, ?_⟩
        · rw [hvcb, vcb_pushChunk, hvcbf, List.append_assoc,
            List.take_append_drop]
        · rw [hpend, pushChunk_pending, hpendf]
        · calc st.cap = stf.cap := hcapf.symm
            _ ≤ (stf.pushChunk (data.take st.cap)).cap :=
              pushChunk_cap_ge stf _
            _ ≤ st'.cap := hcaple
        · rw [hlog, pushChunk_file, hlogf]
          simp
        · intro e he
          rw [List.mem_cons] at he
          rcases he with rfl | he
          · exact ⟨st.buffer, rfl⟩
          · exact hw e he
        · show st.buffer ++ writtenBytes evs' ++ st'.buffer
            = st.buffer ++ data
          rw [List.append_assoc, hwb, pushChunk_buffer, hbuff,
            List.nil_append, List.take_append_drop]
        · intro _
          apply hbne
          intro hcontra
          rw [pushChunk_buffer, hbuff, List.nil_append] at hcontra
          exact hchunkne (List.append_eq_nil.mp hcontra).1
      · -- room remains: the chunk is pushed without flushing
        have hstep : BulkWriter.writeLoop (n + 1) st data
            = BulkWriter.writeLoop n (st.pushChunk (data.take st.cap))
                (data.drop st.cap) := by
          rw [BulkWriter.writeLoop.eq_def, if_neg hlc, if_neg hrem]
        obtain ⟨st', evs', heq, hvcb, hpend, hcaple, hbc', hcl', hba', hlog,
            hw, hwb, hbne⟩ :=
          ih (data.drop st.cap) (st.pushChunk (data.take st.cap)) hdroplen
            (le_trans hcap (pushChunk_cap_ge st _))
            (pushChunk_fits st _)
            (by rw [pushChunk_file]; exact hcl)
            (by rw [pushChunk_bytes_added, pushChunk_file]; exact hba)
        refine ⟨st', evs', hstep.trans heq, ?_, ?_, ?_, hbc', hcl', hba',
          ?_, hw, ?_, ?_⟩
        · rw [hvcb, vcb_pushChunk, List.append_assoc, List.take_append_drop]
        · rw [hpend, pushChunk_pending]
        · exact le_trans (pushChunk_cap_ge st _) hcaple
        · rw [hlog, pushChunk_file]
        · rw [hwb, pushChunk_buffer, List.append_assoc, List.take_append_drop]
        · intro _
          apply hbne
          intro hcontra
          rw [pushChunk_buffer] at hcontra
          have h1 := (List.append_eq_nil.mp hcontra).1
          exact hchunkne (List.append_eq_nil.mp h1).2

/-- Bundled facts about a successful extension flush from a state with an
empty buffer. -/
theorem extends_state_facts {st : BulkWriter}
    (hcl : st.file.contents.length ≤ st.file.pos)
    (hba : st.bytes_added = st.file.pos)
    (hbuf : st.buffer = []) :
    ∃ stg, st.flush_extends = Except.ok stg
      ∧ vcb stg = virt st
      ∧ stg.buffer = []
      ∧ stg.cap = st.cap
      ∧ stg.pending_extend = 0
      ∧ stg.file.contents.length ≤ stg.file.pos
      ∧ stg.bytes_added = stg.file.pos
      ∧ stg.file.log = st.file.log ++ [Ev.seekCur st.pending_extend] := by
  refine ⟨_, flush_extends_eq st, ?_, hbuf, rfl, rfl, ?_, ?_, rfl⟩
  · show st.file.contents
        ++ List.replicate
          (st.file.pos + st.pending_extend - st.file.contents.length) 0
        ++ st.buffer = virt st
    rw [hbuf]
    have hsplit : st.file.pos + st.pending_extend - st.file.contents.length
        = (st.file.pos - st.file.contents.length) + st.pending_extend := by
      omega
    rw [hsplit, List.replicate_add, virt, vcb, hbuf]
    simp
  · show st.file.contents.length ≤ st.file.pos + st.pending_extend
    omega
  · show st.bytes_added + st.pending_extend
        = st.file.pos + st.pending_extend
    omega

/-- Full specification of BulkWriter write: under the writer invariant the
call succeeds, appends the data to the logical bytes, and issues events in
the order buffered-data flush first, then the pending seek, then only
write events for the new data. -/
theorem write_spec {st : BulkWriter} {data : List Byte} (hw : wInv st) :
    ∃ st' evs,
      st.write data = Except.ok st'
      ∧ wInv st'
      ∧ virt st' = virt st ++ data
      ∧ st'.file.log = st.file.log ++ evs
      ∧ (data = [] → st' = st ∧ evs = [])
      ∧ (data ≠ [] → st'.pending_extend = 0 ∧ st'.buffer ≠ [])
      ∧ (st.pending_extend = 0 → ∀ e ∈ evs, ∃ bs, e = Ev.write bs)
      ∧ (0 < st.pending_extend → data ≠ [] →
          ∃ evs2, evs = (if st.buffer = [] then ([] : List Ev)
              else [Ev.write st.buffer])
              ++ [Ev.seekCur st.pending_extend] ++ evs2
            ∧ (∀ e ∈ evs2, ∃ bs, e = Ev.write bs)
            ∧ writtenBytes evs2 ++ st'.buffer = data) := by
  obtain ⟨hba, hcl, hcap, hbc⟩ := hw
  by_cases hdnil : data = []
  · -- nothing to write: the call is a no-op
    subst hdnil
    have hrun : st.write [] = Except.ok st := by
      unfold BulkWriter.write
      rw [if_neg (by simp)]
      exact writeLoop_nil 0 st
    refine ⟨st, [], hrun, ⟨hba, hcl, hcap, hbc⟩, by simp, by simp,
      fun _ => ⟨rfl, rfl⟩, fun hne => absurd rfl hne, by simp, ?_⟩
    intro _ hne
    exact absurd rfl hne
  · have hdlen : 0 < data.length := by
      cases data
      · exact absurd rfl hdnil
      · simp
    by_cases hpend : 0 < st.pending_extend
    · -- a pending extension must be flushed before the data
      have hcond : st.pending_extend > 0 ∧ data.length > 0 := ⟨hpend, hdlen⟩
      by_cases hbuf : st.buffer.length > 0
      · -- buffered data goes first, then the seek, then the new data
        obtain ⟨stf, hfeq, hvcbf, hbuff, hcapf, hpendf, hclenf, hbaf, hlogf,
            hposf, hcontf⟩ := flush_state_facts hcl hba
        obtain ⟨stg, hgeq, hvcbg, hbufg, hcapg, hpendg, hclg, hbag, hlogg⟩ :=
          extends_state_facts (le_of_eq hclenf) hbaf hbuff
        have hrun : st.write data
            = BulkWriter.writeLoop data.length stg data := by
          unfold BulkWriter.write
          rw [if_pos hcond, if_pos hbuf, hfeq]
          show stf.flush_extends.bind
              (fun st1 => BulkWriter.writeLoop data.length st1 data)
              = BulkWriter.writeLoop data.length stg data
          rw [hgeq]
          rfl
        obtain ⟨st', evs2, heq, hvcb, hpend', hcaple, hbc', hcl', hba', hlog,
            hwr, hwb, hbne⟩ :=
          writeLoop_spec data.length data stg (le_refl _)
            (by rw [hcapg, hcapf]; exact hcap)
            (by rw [hbufg]; simp)
            hclg hbag
        have hvirtg : vcb stg = virt st := by
          rw [hvcbg]
          simp only [virt, hvcbf, hpendf]
        refine ⟨st', (if st.buffer = [] then ([] : List Ev)
            else [Ev.write st.buffer])
            ++ [Ev.seekCur st.pending_extend] ++ evs2,
          hrun.trans heq, ⟨hba', hcl',
            le_trans hcap (by rw [← hcapf, ← hcapg]; exact hcaple), hbc'⟩,
          ?_, ?_, ?_, ?_, ?_, ?_⟩
        · rw [virt, hpend', hpendg, hvcb, hvirtg]
          simp
        · rw [hlog, hlogg, hlogf, hpendf]
          have hbne' : st.buffer ≠ [] := by
            intro hnil
            rw [hnil] at hbuf
            simp at hbuf
          rw [if_neg hbne']
          simp
        · intro habs
          exact absurd habs hdnil
        · intro _
          refine ⟨by rw [hpend', hpendg], ?_⟩
          apply hbne
          rw [hbufg, List.nil_append]
          exact hdnil
        · intro h0
          omega
        · intro _ _
          refine ⟨evs2, rfl, hwr, ?_⟩
          rw [hwb, hbufg, List.nil_append]
      · -- no buffered data: just the seek, then the new data
        have hbuf0 : st.buffer = [] := by
          rw [← List.length_eq_zero]
          omega
        obtain ⟨stg, hgeq, hvcbg, hbufg, hcapg, hpendg, hclg, hbag, hlogg⟩ :=
          extends_state_facts hcl hba hbuf0
        have hrun : st.write data
            = BulkWriter.writeLoop data.length stg data := by
          unfold BulkWriter.write
          rw [if_pos hcond, if_neg hbuf]
          show st.flush_extends.bind
              (fun st1 => BulkWriter.writeLoop data.length st1 data)
              = BulkWriter.writeLoop data.length stg data
          rw [hgeq]
          rfl
        obtain ⟨st', evs2, heq, hvcb, hpend', hcaple, hbc', hcl', hba', hlog,
            hwr, hwb, hbne⟩ :=
          writeLoop_spec data.length data stg (le_refl _)
            (by rw [hcapg]; exact hcap)
            (by rw [hbufg]; simp)
            hclg hbag
        refine ⟨st', (if st.buffer = [] then ([] : List Ev)
            else [Ev.write st.buffer])
            ++ [Ev.seekCur st.pending_extend] ++ evs2,
          hrun.trans heq, ⟨hba', hcl',
            le_trans hcap (by rw [← hcapg]; exact hcaple), hbc'⟩,
          ?_, ?_, ?_, ?_, ?_, ?_⟩
        · rw [virt, hpend', hpendg, hvcb, hvcbg]
          simp
        · rw [hlog, hlogg, if_pos hbuf0]
          simp
        · intro habs
          exact absurd habs hdnil
        · intro _
          refine ⟨by rw [hpend', hpendg], ?_⟩
          apply hbne
          rw [hbufg, List.nil_append]
          exact hdnil
        · intro h0
          omega
        · intro _ _
          refine ⟨evs2, rfl, hwr, ?_⟩
          rw [hwb, hbufg, List.nil_append]
    · -- no pending extension: the data is buffered directly
      have hpend0 : st.pending_extend = 0 := by omega
      have hrun : st.write data
          = BulkWriter.writeLoop data.length st data := by
        unfold BulkWriter.write
        rw [if_neg (by omega)]
      obtain ⟨st', evs2, heq, hvcb, hpend', hcaple, hbc', hcl', hba', hlog,
          hwr, hwb, hbne⟩ :=
        writeLoop_spec data.length data st (le_refl _) hcap hbc hcl hba
      refine ⟨st', evs2, hrun.trans heq,
        ⟨hba', hcl', le_trans hcap hcaple, hbc'⟩, ?_, hlog, ?_, ?_,
        fun _ => hwr, fun h0 => absurd hpend0 (by omega)⟩
      · rw [virt, virt, hpend', hpend0, hvcb]
        simp
      · intro habs
        exact absurd habs hdnil
      · intro _
        refine ⟨by rw [hpend', hpend0], ?_⟩
        apply hbne
        intro hcontra
        exact hdnil (List.append_eq_nil.mp hcontra).2

/-- Full specification of detach: the final flush and, when an extension
is pending, the explicit length fixup; detach never seeks. -/
theorem detach_spec {st : BulkWriter} (hw : wInv st) (hslack : slackOk st) :
    ∃ st', st.detach = Except.ok st'
      ∧ st'.file.contents = virt st
      ∧ st'.buffer = []
      ∧ st'.file.pos = st.file.pos + st.buffer.length
      ∧ st'.file.log = st.file.log
          ++ (if st.buffer.length = 0 then ([] : List Ev)
              else [Ev.write st.buffer])
          ++ (if st.pending_extend = 0 then ([] : List Ev)
              else [Ev.setLen (st.bytes_added + st.buffer.length
                + st.pending_extend)]) := by
  obtain ⟨hba, hcl, hcap, hbc⟩ := hw
  by_cases hbuf : st.buffer.length > 0
  · obtain ⟨stf, hfeq, hvcbf, hbuff, hcapf, hpendf, hclenf, hbaf, hlogf,
        hposf, hcontf⟩ := flush_state_facts hcl hba
    have hrun : st.detach = (if stf.pending_extend > 0 then
        Except.ok { stf with
          file := stf.file.sysFtruncate
              (stf.bytes_added + stf.pending_extend) }
      else Except.ok stf) := by
      unfold BulkWriter.detach
      rw [if_pos hbuf, hfeq]
    by_cases hp : stf.pending_extend > 0
    · rw [if_pos hp] at hrun
      refine ⟨_, hrun, ?_, hbuff, ?_, ?_⟩
      · -- the ftruncate pads the flushed contents with the pending zeros
        show stf.file.contents.take (stf.bytes_added + stf.pending_extend)
            ++ List.replicate ((stf.bytes_added + stf.pending_extend)
              - stf.file.contents.length) 0 = virt st
        have hlen : stf.file.contents.length
            = stf.bytes_added := by
          rw [hclenf, hbaf]
        have htk : stf.file.contents.take
            (stf.bytes_added + stf.pending_extend) = stf.file.contents := by
          apply List.take_of_length_le
          omega
        have hrep : stf.bytes_added + stf.pending_extend
            - stf.file.contents.length = stf.pending_extend := by
          omega
        rw [htk, hrep, hcontf, hpendf, virt]
      · show stf.file.pos = st.file.pos + st.buffer.length
        exact hposf
      · show stf.file.log ++ [Ev.setLen (stf.bytes_added
            + stf.pending_extend)] = _
        rw [hlogf, hbaf, hposf, hpendf, if_neg (by omega),
          if_neg (by omega), hba]
    · rw [if_neg hp] at hrun
      have hp0 : st.pending_extend = 0 := by
        rw [← hpendf]
        omega
      refine ⟨stf, hrun, ?_, hbuff, hposf, ?_⟩
      · rw [hcontf, virt, hp0]
        simp
      · rw [hlogf, if_neg (by omega), hp0, if_pos rfl]
        simp
  · have hbuf0 : st.buffer = [] := by
      rw [← List.length_eq_zero]
      omega
    have hrun : st.detach = (if st.pending_extend > 0 then
        Except.ok { st with
          file := st.file.sysFtruncate
              (st.bytes_added + st.pending_extend) }
      else Except.ok st) := by
      unfold BulkWriter.detach
      rw [if_neg hbuf]
    by_cases hp : st.pending_extend > 0
    · rw [if_pos hp] at hrun
      refine ⟨_, hrun, ?_, hbuf0, ?_, ?_⟩
      · show st.file.contents.take (st.bytes_added + st.pending_extend)
            ++ List.replicate ((st.bytes_added + st.pending_extend)
              - st.file.contents.length) 0 = virt st
        have htk : st.file.contents.take
            (st.bytes_added + st.pending_extend) = st.file.contents := by
          apply List.take_of_length_le
          omega
        have hrep : st.bytes_added + st.pending_extend
            - st.file.contents.length
            = (st.file.pos - st.file.contents.length)
              + st.pending_extend := by
          omega
        rw [htk, hrep, List.replicate_add, virt, vcb, hbuf0]
        simp
      · show st.file.pos = st.file.pos + st.buffer.length
        rw [hbuf0]
        simp
      · show st.file.log ++ [Ev.setLen (st.bytes_added
            + st.pending_extend)] = _
        rw [if_pos (by omega), if_neg (by omega), hbuf0]
        simp
    · rw [if_neg hp] at hrun
      have hp0 : st.pending_extend = 0 := by omega
      have hpos0 : st.file.pos = st.file.contents.length := by
        rcases hslack with hs | hs
        · exact hs
        · exact absurd hbuf0 hs
      refine ⟨st, hrun, ?_, hbuf0, ?_, ?_⟩
      · rw [virt, vcb, hbuf0, hp0, hpos0]
        simp
      · rw [hbuf0]
        simp
      · rw [if_pos (by omega), hp0, if_pos rfl]
        simp

/-- Extending the writer appends zeros to its logical bytes. -/
theorem virt_extend (st : BulkWriter) (n : Nat) :
    virt (st.extend n) = virt st ++ List.replicate n 0 := by
  show vcb st ++ List.replicate (st.pending_extend + n) 0
      = vcb st ++ List.replicate st.pending_extend 0
        ++ List.replicate n 0
  rw [List.replicate_add, List.append_assoc]

/-- Invariant of the copy loop: with enough fuel the loop reaches a final
writer state and hands it to detach; the logical bytes grow by exactly the
unread rest of the stream, the invariants are maintained, and the pending
extension always equals the trailing zero run of the logical bytes. -/
theorem copyLoop_spec :
    ∀ (fuel : Nat) (r : RegionReader) (st : BulkWriter),
    rMeasure r < fuel → wfR r → wInv st → slackOk st →
    st.pending_extend = trailZeros (virt st) →
    ∃ stF, copyLoop fuel r st = stF.detach
      ∧ wInv stF ∧ slackOk stF
      ∧ virt stF = virt st ++ restBytes r
      ∧ stF.pending_extend = trailZeros (virt stF) := by
  intro fuel
  induction fuel with
  | zero =>
    intro r st hm _ _ _ _
    exact absurd hm (by omega)
  | succ fuel ih =>
    intro r st hm hwf hwinv hslack htz
    rcases hread : r.read with ⟨oreg, r1⟩
    rcases oreg with _ | reg
    · obtain ⟨hrest, _⟩ := read_none_spec hwf hread
      refine ⟨st, ?_, hwinv, hslack, by rw [hrest]; simp, htz⟩
      show copyLoop (fuel + 1) r st = st.detach
      simp only [copyLoop, hread]
    · obtain ⟨hwf1, hbytes, hmeas, hok, _⟩ := read_some_spec hwf hread
      cases reg with
      | Data d =>
        obtain ⟨hdne, hdnz⟩ := hok
        obtain ⟨st2, evs, hweq, hwinv2, hvirt2, _, _, hne2, _, _⟩ :=
          write_spec hwinv
        have hpend2 : st2.pending_extend = 0 := (hne2 hdne).1
        have hbne2 : st2.buffer ≠ [] := (hne2 hdne).2
        have htz2 : st2.pending_extend = trailZeros (virt st2) := by
          rw [hpend2, hvirt2, trailZeros_append_nonzero hdne hdnz]
        obtain ⟨stF, hloop, hwinvF, hslackF, hvirtF, htzF⟩ :=
          ih r1 st2 (by omega) hwf1 hwinv2 (Or.inr hbne2) htz2
        refine ⟨stF, ?_, hwinvF, hslackF, ?_, htzF⟩
        · show copyLoop (fuel + 1) r st = stF.detach
          simp only [copyLoop, hread, hweq]
          exact hloop
        · rw [hvirtF, hvirt2, List.append_assoc]
          have : d ++ restBytes r1 = restBytes r := hbytes
          rw [this]
      | Hole n =>
        have hwinv2 : wInv (st.extend n) := hwinv
        have hslack2 : slackOk (st.extend n) := hslack
        have htz2 : (st.extend n).pending_extend
            = trailZeros (virt (st.extend n)) := by
          show st.pending_extend + n = _
          rw [virt_extend, trailZeros_append_replicate, htz]
        obtain ⟨stF, hloop, hwinvF, hslackF, hvirtF, htzF⟩ :=
          ih r1 (st.extend n) (by omega) hwf1 hwinv2 hslack2 htz2
        refine ⟨stF, ?_, hwinvF, hslackF, ?_, htzF⟩
        · show copyLoop (fuel + 1) r st = stF.detach
          simp only [copyLoop, hread]
          exact hloop
        · rw [hvirtF, virt_extend, List.append_assoc]
          have : List.replicate n 0 ++ restBytes r1 = restBytes r := hbytes
          rw [this]

/-- End-to-end run of the copy driver on a well-formed source: the run
succeeds, the destination holds exactly the source bytes, the buffer is
drained, the final offset falls short of the length by exactly the
trailing zero run, and a trailing hole ends the log with the explicit
length fixup. -/
theorem copy_run {src : List (List Byte)} (hwf : wfSrc src) :
    ∃ st', copy_with_holes src = Except.ok st'
      ∧ st'.file.contents = src.flatten
      ∧ st'.buffer = []
      ∧ st'.file.pos + trailZeros src.flatten = src.flatten.length
      ∧ (trailZeros src.flatten ≠ 0 →
          st'.file.log.getLast? = some (Ev.setLen src.flatten.length)) := by
  have hwfr : wfR (RegionReader.attach src) := ⟨le_refl 0, rfl, hwf⟩
  have hwinv0 : wInv (BulkWriter.attach emptyFile) := by
    refine ⟨rfl, le_refl 0, ?_, ?_⟩
    · show (1:Nat) ≤ BUF_SIZE
      decide
    · show (0:Nat) ≤ BUF_SIZE
      exact Nat.zero_le _
  have hslack0 : slackOk (BulkWriter.attach emptyFile) := Or.inl rfl
  have htz0 : (BulkWriter.attach emptyFile).pending_extend
      = trailZeros (virt (BulkWriter.attach emptyFile)) := by
    simp [virt, vcb, trailZeros, leadZeros, BulkWriter.attach, emptyFile]
  have hfuel : rMeasure (RegionReader.attach src)
      < readerFuel (RegionReader.attach src) := by
    simp [rMeasure, readerFuel, RegionReader.attach]
  obtain ⟨stF, hloop, hwinvF, hslackF, hvirtF, htzF⟩ :=
    copyLoop_spec _ _ _ hfuel hwfr hwinv0 hslack0 htz0
  have hvirtF' : virt stF = src.flatten := by
    rw [hvirtF]
    show virt (BulkWriter.attach emptyFile)
        ++ restBytes (RegionReader.attach src) = src.flatten
    simp [virt, vcb, restBytes, BulkWriter.attach, RegionReader.attach,
      emptyFile]
  obtain ⟨st', hdeq, hcont, hbuf, hpos, hlog⟩ := detach_spec hwinvF hslackF
  have hrun : copy_with_holes src = Except.ok st' := by
    have hunfold : copy_with_holes src
        = copyLoop (readerFuel (RegionReader.attach src))
            (RegionReader.attach src) (BulkWriter.attach emptyFile) := rfl
    rw [hunfold, hloop, hdeq]
  have htzflat : trailZeros src.flatten = stF.pending_extend := by
    rw [← hvirtF']
    exact htzF.symm
  have hlen := congrArg List.length hvirtF'
  simp only [virt, vcb, List.length_append, List.length_replicate] at hlen
  obtain ⟨hbaF, hclF, _, _⟩ := hwinvF
  refine ⟨st', hrun, by rw [hcont, hvirtF'], hbuf, ?_, ?_⟩
  · rw [hpos, htzflat]
    omega
  · intro hne
    have hpne : ¬ stF.pending_extend = 0 := by
      rw [htzflat] at hne
      exact hne
    rw [hlog, if_neg hpne, List.getLast?_concat]
    have hL : stF.bytes_added + stF.buffer.length + stF.pending_extend
        = src.flatten.length := by
      omega
    rw [hL]

/-- Running the reader to completion with enough fuel yields regions whose
bytes exactly reconstruct the remaining stream, all of them well formed. -/
theorem readAll_spec :
    ∀ (fuel : Nat) (r : RegionReader), rMeasure r < fuel → wfR r →
    ((readAll fuel r).map regionBytes).flatten = restBytes r
    ∧ ∀ reg ∈ readAll fuel r, regionOk reg := by
  intro fuel
  induction fuel with
  | zero =>
    intro r hm _
    exact absurd hm (by omega)
  | succ fuel ih =>
    intro r hm hwf
    rcases hread : r.read with ⟨oreg, r1⟩
    rcases oreg with _ | reg
    · obtain ⟨hrest, _⟩ := read_none_spec hwf hread
      constructor
      · simp only [readAll, hread]
        rw [hrest]
        simp
      · simp only [readAll, hread]
        intro reg h
        simp at h
    · obtain ⟨hwf1, hbytes, hmeas, hok, _⟩ := read_some_spec hwf hread
      obtain ⟨ih1, ih2⟩ := ih r1 (by omega) hwf1
      constructor
      · simp only [readAll, hread, List.map_cons, List.flatten_cons, ih1]
        exact hbytes
      · simp only [readAll, hread]
        intro x hx
        rw [List.mem_cons] at hx
        rcases hx with rfl | hx
        · exact hok
        · exact ih2 x hx

/-- The kind of the region a read produces without a refill is decided by
the byte under the cursor. -/
theorem read_kind_noRefill {r : RegionReader} {reg : Region}
    {r2 : RegionReader} (hne : ¬ r.next_index = r.bytes_read)
    (h : r.read = (some reg, r2)) :
    reg.isHole = true ↔ r.buffer.getD r.next_index 0 = 0 := by
  simp only [RegionReader.read, if_neg hne] at h
  by_cases hb : r.buffer.getD r.next_index 0 = 0
  · simp only [RegionReader.classify, if_pos hb] at h
    rw [Prod.mk.injEq] at h
    obtain ⟨h1, _⟩ := h
    rw [Option.some.injEq] at h1
    subst h1
    exact ⟨fun _ => hb, fun _ => rfl⟩
  · simp only [RegionReader.classify, if_neg hb] at h
    rw [Prod.mk.injEq] at h
    obtain ⟨h1, _⟩ := h
    rw [Option.some.injEq] at h1
    subst h1
    constructor
    · intro hcontra
      exact absurd hcontra (by simp [Region.isHole])
    · intro hz
      exact absurd hz hb

/-- Two consecutive regions never share a kind unless the second read
refilled the buffer: the first region ends at a byte of the opposite
class, which is where the second region starts. -/
theorem read_alternation {r : RegionReader} {reg reg' : Region}
    {r1 r2 : RegionReader} (hwf : wfR r) (h1 : r.read = (some reg, r1))
    (hnofill : ¬ r1.next_index = r1.bytes_read)
    (h2 : r1.read = (some reg', r2)) :
    reg'.isHole ≠ reg.isHole := by
  obtain ⟨hwf1, _, _, _, hbound⟩ := read_some_spec hwf h1
  have hlt : r1.next_index < r1.bytes_read :=
    lt_of_le_of_ne hwf1.1 hnofill
  have hb := hbound hlt
  have hk := read_kind_noRefill hnofill h2
  by_cases hz : r1.buffer.getD r1.next_index 0 = 0
  · have hprev : reg.isHole = false := hb.mp hz
    have hnext : reg'.isHole = true := hk.mpr hz
    rw [hprev, hnext]
    simp
  · have hprev : reg.isHole = true := by
      rcases hbool : reg.isHole with _ | _
      · exact absurd (hb.mpr hbool) hz
      · rfl
    have hnext : reg'.isHole = false := by
      rcases hbool : reg'.isHole with _ | _
      · rfl
      · exact absurd (hk.mp hbool) hz
    rw [hprev, hnext]
    simp

/-- One-step unfolding of the fueled writeLoop. -/
theorem writeLoop_succ (fuel : Nat) (st : BulkWriter) (data : List Byte) :
    BulkWriter.writeLoop (fuel + 1) st data
      = if data.length = 0 then Except.ok st
        else
          match (if st.remaining = 0 then st.flush_writes
              else Except.ok st) with
          | Except.error e => Except.error e
          | Except.ok st1 =>
            BulkWriter.writeLoop fuel (st1.pushChunk (data.take st.cap))
              (data.drop st.cap) := by
  rw [BulkWriter.writeLoop.eq_def]

/-- With no pending extension, write goes straight to the buffering loop. -/
theorem write_no_pending {st : BulkWriter} (h : st.pending_extend = 0)
    (data : List Byte) :
    st.write data = BulkWriter.writeLoop data.length st data := by
  unfold BulkWriter.write
  rw [if_neg (by omega)]

/-- C9: Frame of extend — for every writer state and amount, extend only
adds the amount to the pending-hole counter: the destination file (with
its log of system calls), the buffer, the bytes-added total and the
capacity are all unchanged, and no read, write, seek or set-length
operation is performed. -/
theorem C9_extend_frame (st : BulkWriter) (amount : Nat) :
    (st.extend amount).pending_extend = st.pending_extend + amount
    ∧ (st.extend amount).file = st.file
    ∧ (st.extend amount).file.log = st.file.log
    ∧ (st.extend amount).buffer = st.buffer
    ∧ (st.extend amount).bytes_added = st.bytes_added
    ∧ (st.extend amount).cap = st.cap :=
  ⟨rfl, rfl, rfl, rfl, rfl, rfl⟩

/-- C10: Every region the reader produces is well formed — a Data region
is nonempty and contains no zero byte at all, a Hole region has positive
length — and when a region ends inside the valid buffer bytes, the byte
at its end boundary belongs to the opposite class (it is zero exactly
when the region was Data), so a Data region ends immediately before the
first zero byte at or after its start. -/
theorem C10_data_regions_nonzero {r : RegionReader} {reg : Region}
    {r2 : RegionReader} (hwf : wfR r) (h : r.read = (some reg, r2)) :
    regionOk reg
    ∧ (r2.next_index < r2.bytes_read →
        (r2.buffer.getD r2.next_index 0 = 0 ↔ reg.isHole = false)) :=
  ⟨(read_some_spec hwf h).2.2.2.1, (read_some_spec hwf h).2.2.2.2⟩

/-- C10 witness: reading [5,0,6] yields the Data region [5], nonempty,
zero-free, ending right before the zero at index 1. -/
theorem C10_data_regions_nonzero_witness :
    wfR (RegionReader.attach [[5,0,6]])
    ∧ (RegionReader.attach [[5,0,6]]).read
        = (some (Region.Data [5]),
           { src := [], buffer := [5,0,6], next_index := 1,
             bytes_read := 3 })
    ∧ (regionOk (Region.Data [5])
        ∧ ((1:Nat) < 3 →
            (([5,0,6] : List Byte).getD 1 0 = 0
              ↔ (Region.Data [5]).isHole = false))) :=
  ⟨by decide, by decide,
    @C10_data_regions_nonzero (RegionReader.attach [[5,0,6]])
      (Region.Data [5])
      { src := [], buffer := [5,0,6], next_index := 1, bytes_read := 3 }
      (by decide) (by decide)⟩

/-- C4 counterexample: the claim fails as stated — a well-formed source
whose two reads each return a single zero byte makes RegionReader emit
the sequence Hole 1, Hole 1, two adjacent regions of the same kind. -/
theorem C4_counterexample :
    wfSrc [[0],[0]]
    ∧ regionsOf [[0],[0]] = [Region.Hole 1, Region.Hole 1]
    ∧ sameKindAdjacent (regionsOf [[0],[0]]) = true :=
  ⟨by decide, by decide, by decide⟩

/-- C4 amended: consecutive regions produced by successive reads never
share a kind unless the later read refilled the buffer from the source;
within one buffer fill the kinds strictly alternate. -/
theorem C4_regions_alternate_within_buffer {r : RegionReader}
    {reg reg' : Region} {r1 r2 : RegionReader} (hwf : wfR r)
    (h1 : r.read = (some reg, r1))
    (hnofill : ¬ r1.next_index = r1.bytes_read)
    (h2 : r1.read = (some reg', r2)) :
    reg'.isHole ≠ reg.isHole :=
  read_alternation hwf h1 hnofill h2

/-- C4 witness: on the single buffer fill [0,7] a Hole is followed by a
Data region, the opposite kind. -/
theorem C4_regions_alternate_witness :
    wfR (RegionReader.attach [[0,7]])
    ∧ (RegionReader.attach [[0,7]]).read
        = (some (Region.Hole 1),
           { src := [], buffer := [0,7], next_index := 1, bytes_read := 2 })
    ∧ ¬ (1 : Nat) = 2
    ∧ RegionReader.read
        { src := [], buffer := [0,7], next_index := 1, bytes_read := 2 }
        = (some (Region.Data [7]),
           { src := [], buffer := [0,7], next_index := 2, bytes_read := 2 })
    ∧ (Region.Data [7]).isHole ≠ (Region.Hole 1).isHole :=
  ⟨by decide, by decide, by decide, by decide,
    @C4_regions_alternate_within_buffer (RegionReader.attach [[0,7]])
      (Region.Hole 1) (Region.Data [7])
      { src := [], buffer := [0,7], next_index := 1, bytes_read := 2 }
      { src := [], buffer := [0,7], next_index := 2, bytes_read := 2 }
      (by decide) (by decide) (by decide) (by decide)⟩

/-- C8: Partial-write failure — when the underlying write reports fewer
bytes than the buffered length the flush fails with the fatal generic
diagnostic; it succeeds exactly when the full buffered length is
reported, clearing the buffer; an underlying input-output error is
reported with the distinct errno-based diagnostic; and the two
diagnostics are never equal. Nothing is retried: the error is returned
to the caller. -/
theorem C8_flush_failure_semantics (st : BulkWriter) (n : Nat)
    (errno : Int) :
    (n ≠ st.buffer.length →
      st.flushWritesWith (SysRes.ok n)
        = Except.error (TlpiErr.fatalErr "wrote partial data"))
    ∧ st.flushWritesWith (SysRes.ok st.buffer.length)
        = Except.ok { st with
            bytes_added := st.bytes_added + st.buffer.length,
            buffer := [] }
    ∧ st.flushWritesWith (SysRes.err errno)
        = Except.error (TlpiErr.errExit errno "write failure")
    ∧ TlpiErr.fatalErr "wrote partial data"
        ≠ TlpiErr.errExit errno "write failure" := by
  refine ⟨?_, ?_, rfl, by simp⟩
  · intro h
    simp only [BulkWriter.flushWritesWith]
    rw [if_pos (by omega : st.buffer.length ≠ n)]
  · simp only [BulkWriter.flushWritesWith]
    rw [if_neg (by omega : ¬ st.buffer.length ≠ st.buffer.length)]

/-- C8 witness: with two bytes buffered, a reported count of one byte is
the fatal diagnostic, an errno of five is the errno diagnostic, and the
two differ. -/
theorem C8_flush_failure_witness :
    BulkWriter.flushWritesWith
        { file := emptyFile, buffer := [1,2], cap := BUF_SIZE,
          pending_extend := 0, bytes_added := 0 } (SysRes.ok 1)
      = Except.error (TlpiErr.fatalErr "wrote partial data")
    ∧ BulkWriter.flushWritesWith
        { file := emptyFile, buffer := [1,2], cap := BUF_SIZE,
          pending_extend := 0, bytes_added := 0 } (SysRes.err 5)
      = Except.error (TlpiErr.errExit 5 "write failure")
    ∧ TlpiErr.fatalErr "wrote partial data"
        ≠ TlpiErr.errExit 5 "write failure" :=
  ⟨(C8_flush_failure_semantics
      { file := emptyFile, buffer := [1,2], cap := BUF_SIZE,
        pending_extend := 0, bytes_added := 0 } 1 5).1 (by decide),
   (C8_flush_failure_semantics
      { file := emptyFile, buffer := [1,2], cap := BUF_SIZE,
        pending_extend := 0, bytes_added := 0 } 1 5).2.2.1,
   (C8_flush_failure_semantics
      { file := emptyFile, buffer := [1,2], cap := BUF_SIZE,
        pending_extend := 0, bytes_added := 0 } 1 5).2.2.2⟩

/-- C1: Round-trip — for every finite source byte stream, presented as
the chunks that successive reads return (covering the empty stream,
all-zero, all-nonzero and mixed streams), the copy driver pulls regions
from RegionReader, pushes Data via write and Hole via extend, detaches,
and the logical byte contents of the destination equal the source
exactly. -/
theorem C1_round_trip {src : List (List Byte)} (hwf : wfSrc src) :
    ∃ st', copy_with_holes src = Except.ok st'
      ∧ st'.file.contents = src.flatten := by
  obtain ⟨st', h1, h2, _⟩ := copy_run hwf
  exact ⟨st', h1, h2⟩

/-- C1 witness: a source with zero runs, a nonzero byte, and a trailing
zero split across two reads round-trips exactly. -/
theorem C1_round_trip_witness :
    wfSrc [[0,0,65],[0]]
    ∧ ∃ st', copy_with_holes [[0,0,65],[0]] = Except.ok st'
        ∧ st'.file.contents = [0,0,65,0] :=
  ⟨by decide, C1_round_trip (by decide)⟩

/-- C2: Trailing hole — for every source ending in at least one zero
byte, the driver succeeds, the remaining buffered data is flushed (the
final buffer is empty), the destination length equals the source length
exactly, the last system call on the destination is the explicit
set-length to exactly the source length (not a seek), and the final
offset falls short of the length by exactly the trailing zero run, which
was therefore never realized as a seek. -/
theorem C2_trailing_hole {src : List (List Byte)} (hwf : wfSrc src)
    (htrail : src.flatten.getLast? = some 0) :
    ∃ st', copy_with_holes src = Except.ok st'
      ∧ st'.buffer = []
      ∧ st'.file.contents = src.flatten
      ∧ st'.file.contents.length = src.flatten.length
      ∧ st'.file.log.getLast? = some (Ev.setLen src.flatten.length)
      ∧ st'.file.pos + trailZeros src.flatten = src.flatten.length
      ∧ 0 < trailZeros src.flatten := by
  obtain ⟨st', h1, h2, h3, h4, h5⟩ := copy_run hwf
  have htz := trailZeros_pos_of_getLast htrail
  exact ⟨st', h1, h3, h2, by rw [h2], h5 (by omega), h4, htz⟩

/-- C2 witness: a nonzero byte followed by two trailing zeros ends with
the set-length call to three bytes and an offset of one. -/
theorem C2_trailing_hole_witness :
    wfSrc [[9,0,0]]
    ∧ (List.flatten [[9,0,0]] : List Byte).getLast? = some 0
    ∧ ∃ st', copy_with_holes [[9,0,0]] = Except.ok st'
        ∧ st'.buffer = []
        ∧ st'.file.contents = [9,0,0]
        ∧ st'.file.contents.length = 3
        ∧ st'.file.log.getLast? = some (Ev.setLen 3)
        ∧ st'.file.pos + trailZeros [9,0,0] = 3
        ∧ 0 < trailZeros [9,0,0] :=
  ⟨by decide, by decide, C2_trailing_hole (by decide) (by decide)⟩

/-- C3: Write-before-seek ordering — whenever write is called with a
positive pending hole amount and nonempty data, the log grows by first
the flush of any already-buffered bytes, then the forward seek by the
pending amount, and after that only write events whose payloads together
with the final buffer are exactly the new data; the pending amount is
reset to zero. A hole that precedes data is therefore never realized as
a seek after that data is written. -/
theorem C3_write_before_seek {st : BulkWriter} {data : List Byte}
    (hw : wInv st) (hpend : 0 < st.pending_extend) (hdata : data ≠ []) :
    ∃ st' evs2,
      st.write data = Except.ok st'
      ∧ st'.file.log = st.file.log
          ++ (if st.buffer = [] then ([] : List Ev)
              else [Ev.write st.buffer])
          ++ [Ev.seekCur st.pending_extend] ++ evs2
      ∧ (∀ e ∈ evs2, ∃ bs, e = Ev.write bs)
      ∧ writtenBytes evs2 ++ st'.buffer = data
      ∧ st'.pending_extend = 0 := by
  obtain ⟨st', evs, heq, _, _, hlog, _, hne, _, hstruct⟩ := write_spec hw
  obtain ⟨evs2, hevs, hwr, hwb⟩ := hstruct hpend hdata
  refine ⟨st', evs2, heq, ?_, hwr, hwb, (hne hdata).1⟩
  rw [hlog, hevs]
  simp [List.append_assoc]

/-- C3 witness: from a fresh writer with a pending extension of three, a
one-byte write logs the seek by three before any data reaches the file,
and the byte stays buffered. -/
theorem C3_write_before_seek_witness :
    wInv ((BulkWriter.attach emptyFile).extend 3)
    ∧ 0 < ((BulkWriter.attach emptyFile).extend 3).pending_extend
    ∧ ([7] : List Byte) ≠ []
    ∧ ∃ st' evs2,
        ((BulkWriter.attach emptyFile).extend 3).write [7] = Except.ok st'
        ∧ st'.file.log
            = ((BulkWriter.attach emptyFile).extend 3).file.log
              ++ (if ((BulkWriter.attach emptyFile).extend 3).buffer = []
                  then ([] : List Ev)
                  else [Ev.write
                    ((BulkWriter.attach emptyFile).extend 3).buffer])
              ++ [Ev.seekCur 3] ++ evs2
        ∧ (∀ e ∈ evs2, ∃ bs, e = Ev.write bs)
        ∧ writtenBytes evs2 ++ st'.buffer = [7]
        ∧ st'.pending_extend = 0 :=
  ⟨by decide, by decide, by decide,
    C3_write_before_seek (by decide) (by decide) (by decide)⟩

/-- C6: Region coverage — the regions the reader produces, in order,
reconstruct the source stream byte for byte (so every byte is covered
exactly once, in sequence), and the region lengths sum to the total
number of bytes read from the source. -/
theorem C6_region_coverage {src : List (List Byte)} (hwf : wfSrc src) :
    ((regionsOf src).map regionBytes).flatten = src.flatten
    ∧ ((regionsOf src).map regionLen).sum = src.flatten.length := by
  have hwfr : wfR (RegionReader.attach src) := ⟨le_refl 0, rfl, hwf⟩
  have hm : rMeasure (RegionReader.attach src)
      < readerFuel (RegionReader.attach src) := by
    simp [rMeasure, readerFuel, RegionReader.attach]
  obtain ⟨h1, _⟩ := readAll_spec _ _ hm hwfr
  have hrest : restBytes (RegionReader.attach src) = src.flatten := by
    simp [restBytes, RegionReader.attach]
  have hflat : ((regionsOf src).map regionBytes).flatten = src.flatten := by
    show ((readAll (readerFuel (RegionReader.attach src))
        (RegionReader.attach src)).map regionBytes).flatten = src.flatten
    rw [h1, hrest]
  refine ⟨hflat, ?_⟩
  have hlen := congrArg List.length hflat
  rw [List.length_flatten, List.map_map] at hlen
  have hcomp : List.length ∘ regionBytes = regionLen := by
    funext reg
    cases reg with
    | Data d => simp [regionBytes, regionLen]
    | Hole n => simp [regionBytes, regionLen]
  rw [hcomp] at hlen
  exact hlen

/-- C6 witness: the regions of the stream [0,5] cover it exactly and
their lengths sum to two. -/
theorem C6_region_coverage_witness :
    wfSrc [[0,5]]
    ∧ ((regionsOf [[0,5]]).map regionBytes).flatten = [0,5]
    ∧ ((regionsOf [[0,5]]).map regionLen).sum = 2 :=
  ⟨by decide, (C6_region_coverage (by decide)).1,
    (C6_region_coverage (by decide)).2⟩

/-- Reduction of bind on an ok value. -/
theorem exceptOk_bind {α β : Type} (a : α)
    (f : α → Except TlpiErr β) : (Except.ok a).bind f = f a := rfl

/-- C5 counterexample: the claim fails as stated — writing one byte and
then a buffer-capacity-sized slice leaves BUF_SIZE + 1 bytes in the
buffer, because write takes chunks of up to a full capacity without
regard to how full the buffer already is. -/
theorem C5_counterexample :
    (((BulkWriter.attach emptyFile).write [1]).bind
        (fun st => st.write (List.replicate BUF_SIZE 1))).map
      (fun st => st.buffer.length) = Except.ok (BUF_SIZE + 1)
    ∧ BUF_SIZE < BUF_SIZE + 1 := by
  refine ⟨?_, by omega⟩
  have hst1 : (BulkWriter.attach emptyFile).write [1] = Except.ok
      { file := emptyFile,
        buffer := [1],
        cap := BUF_SIZE,
        pending_extend := 0,
        bytes_added := 0 } := by rfl
  rw [hst1, exceptOk_bind]
  rw [write_no_pending rfl, List.length_replicate]
  have hBS : BUF_SIZE = 65535 + 1 := rfl
  have hrem : ¬ ({
      file := emptyFile,
      buffer := [1],
      cap := 65535 + 1,
      pending_extend := 0,
      bytes_added := 0 } : BulkWriter).remaining = 0 := by
    decide
  rw [hBS, writeLoop_succ, List.length_replicate,
    if_neg (by omega : ¬ 65535 + 1 = 0), if_neg hrem]
  show (BulkWriter.writeLoop 65535
      (BulkWriter.pushChunk
        { file := emptyFile,
          buffer := [1],
          cap := 65535 + 1,
          pending_extend := 0,
          bytes_added := 0 }
        ((List.replicate (65535 + 1) 1).take (65535 + 1)))
      ((List.replicate (65535 + 1) 1).drop (65535 + 1))).map
      (fun st => st.buffer.length)
    = Except.ok (65535 + 1 + 1)
  rw [List.take_replicate, List.drop_replicate, Nat.sub_self,
    List.replicate_zero, writeLoop_nil]
  show Except.ok (BulkWriter.pushChunk
      { file := emptyFile,
        buffer := [1],
        cap := 65535 + 1,
        pending_extend := 0,
        bytes_added := 0 }
      (List.replicate ((65535 + 1) ⊓ (65535 + 1)) 1)).buffer.length
    = Except.ok (65535 + 1 + 1)
  rw [Nat.min_self, pushChunk_buffer, List.length_append,
    List.length_replicate, List.length_singleton]

/-- C5 amended: write copies the data into the output buffer in chunks of
up to one buffer capacity, flushing to the sink whenever the buffer has
no room left; the number of buffered bytes never exceeds the current
capacity of the buffer, and the capacity starts at BUF_SIZE but can grow
past BUF_SIZE when a write arrives while earlier data is still buffered. -/
theorem C5_buffer_within_capacity {st : BulkWriter} {data : List Byte}
    {stw : BulkWriter} (hw : wInv st)
    (h : st.write data = Except.ok stw) :
    stw.buffer.length ≤ stw.cap := by
  obtain ⟨st2, evs, heq, hwinv2, _⟩ := write_spec hw
  rw [heq, Except.ok.injEq] at h
  rw [← h]
  exact hwinv2.2.2.2

/-- C5 amended witness: a two-byte write on a fresh writer buffers two
bytes, within the capacity. -/
theorem C5_buffer_within_capacity_witness :
    wInv (BulkWriter.attach emptyFile)
    ∧ (BulkWriter.attach emptyFile).write [1,2] = Except.ok
      { file := emptyFile,
        buffer := [1,2],
        cap := BUF_SIZE,
        pending_extend := 0,
        bytes_added := 0 }
    ∧ ({
        file := emptyFile,
        buffer := [1,2],
        cap := BUF_SIZE,
        pending_extend := 0,
        bytes_added := 0 } : BulkWriter).buffer.length
      ≤ ({
        file := emptyFile,
        buffer := [1,2],
        cap := BUF_SIZE,
        pending_extend := 0,
        bytes_added := 0 } : BulkWriter).cap :=
  ⟨by decide, by rfl,
    @C5_buffer_within_capacity (BulkWriter.attach emptyFile) [1,2]
      { file := emptyFile,
        buffer := [1,2],
        cap := BUF_SIZE,
        pending_extend := 0,
        bytes_added := 0 }
      (by decide) (by rfl)⟩

set_option maxHeartbeats 4000000 in
/-- C7: Concrete scenario — the eight-byte source 0,0,0,65,66,0,0,67 is
decomposed by the reader into Hole 3, Data 65 66, Hole 2, Data 67; the
copy produces exactly those destination bytes; and the system calls on
the destination are two forward seeks (for the two holes) and two data
writes, with no zero byte ever passed to a write. -/
theorem C7_concrete_scenario :
    regionsOf [[0,0,0,65,66,0,0,67]]
      = [Region.Hole 3, Region.Data [65,66], Region.Hole 2,
         Region.Data [67]]
    ∧ (copy_with_holes [[0,0,0,65,66,0,0,67]]).map
        (fun st => st.file.contents)
      = Except.ok [0,0,0,65,66,0,0,67]
    ∧ (copy_with_holes [[0,0,0,65,66,0,0,67]]).map
        (fun st => st.file.log)
      = Except.ok [Ev.seekCur 3, Ev.write [65,66], Ev.seekCur 2,
          Ev.write [67]] :=
  ⟨by decide, by rfl, by rfl⟩
